import Mathlib

/-! Waterman polyhedra: lattice generator and export helpers.

A verification development for `watermanpoly.cpp` (`WatermanPoly::genPoly`) and the
helpers local to `genWaterman` in `swiftInterface.cpp`
(`normalizeCoords`, `copyCoords`, `sumFaces`, `genFaces`).

Conventions of the embedding.

* A `double` is read as an exact number.  Every finite `double` is a rational, so the
  radius and all coordinates are values of `ℚ`.
* The loop counters `x`, `y`, `z` of `genPoly` start at the result of `ceil` and are
  advanced by `1` or `2`; they are integer valued throughout and are carried as `ℤ`.
* `sqrt` is only ever used under `ceil(c - sqrt(R))` and `floor(c + sqrt(R))` with an
  integral centre `c`.  These two compositions are the definitions `ceilSubSqrt` and
  `floorAddSqrt`; the theorems `ceilSubSqrt_eq_real` and `floorAddSqrt_eq_real` state
  that they agree with the real square root.
* A C `for` loop is a structurally recursive function on a fuel counter; the fuel
  handed to it is computed from the loop bounds.  `genPolyRun` is the same generator
  with the fuel given from outside and the argument of `sqrt` checked; it is used to
  state termination.
* The hull builder `QuickHull3D` is not among the sources.  `genHull` and `genWaterman`
  take it as a parameter, and `IsHullOf` states what its description says of its result.
-/

namespace Waterman

/-! ## Data model -/

/-- A point of three `double` coordinates (`Point3d` of the C++ code). -/
structure Point3d where
  x : ℚ
  y : ℚ
  z : ℚ
deriving DecidableEq

/-! ## `WatermanPoly::genPoly` -/

/-- C `fmod(v, m)` at integral arguments: the remainder has the sign of `v`. -/
def fmod (v m : ℤ) : ℤ := Int.tmod v m

/-- The value of `ceil(c - sqrt(R))` for an integral `c` and `R ≥ 0`. -/
def ceilSubSqrt (c : ℤ) (R : ℚ) : ℤ := c - (Nat.sqrt ⌊R⌋₊ : ℤ)

/-- The value of `floor(c + sqrt(R))` for an integral `c` and `R ≥ 0`. -/
def floorAddSqrt (c : ℤ) (R : ℚ) : ℤ := c + (Nat.sqrt ⌊R⌋₊ : ℤ)

/-- The loop `for (v = lo; v <= hi; v += step) body(v)`, where every run of the body
appends the points it returns to `coords`.  `fuel` bounds the number of iterations. -/
def forLoop (step : ℤ) (hi : ℤ) (body : ℤ → List Point3d) : ℕ → ℤ → List Point3d
  | 0, _ => []
  | fuel + 1, v => if v ≤ hi then body v ++ forLoop step hi body fuel (v + step) else []

/-- Fuel that lets `forLoop` run from `lo` until the counter exceeds `hi`
(for a step of at least `1`). -/
def loopFuel (lo hi : ℤ) : ℕ := (hi - lo + 1).toNat

/-- The centre of the sphere, `a = b = c = 0` in `genPoly`. -/
def a : ℤ := 0

/-- The centre of the sphere, second coordinate. -/
def b : ℤ := 0

/-- The centre of the sphere, third coordinate. -/
def c : ℤ := 0

/-- The parity correction of the lower `z` bound in the `Ry > 0` branch. -/
def adjustZra (x y zra : ℤ) : ℤ :=
  if fmod (x + y) 2 = 0 then
    if fmod zra 2 ≠ 0 then
      if zra ≤ c then zra + 1 else zra - 1
    else zra
  else
    if fmod zra 2 = 0 then
      if zra ≤ c then zra + 1 else zra - 1
    else zra

/-- The innermost loop: `for (z = zra; z <= zrb; z += 2) coords.push_back(Point3d(x,y,z))`. -/
def zLoop (x y zra zrb : ℤ) : List Point3d :=
  forLoop 2 zrb (fun z => [⟨x, y, z⟩]) (loopFuel zra zrb) zra

/-- The body of the `y` loop of `genPoly`, for the current `R`, `x` and `y`. -/
def yBody (R : ℚ) (x y : ℤ) : List Point3d :=
  let Ry : ℚ := R - ((y : ℚ) - b) * ((y : ℚ) - b)
  if Ry < 0 then []
  else if Ry = 0 ∧ ((c : ℚ) = ⌊(c : ℚ)⌋) then
    if fmod (x + y + c) 2 ≠ 0 then []
    else zLoop x y c c
  else
    let zra := ceilSubSqrt c Ry
    let zrb := floorAddSqrt c Ry
    zLoop x y (adjustZra x y zra) zrb

/-- The body of the `x` loop of `genPoly`, for the current `x`. -/
def xBody (radius2 : ℚ) (x : ℤ) : List Point3d :=
  let R : ℚ := radius2 - ((x : ℚ) - a) * ((x : ℚ) - a)
  if R < 0 then []
  else
    let yra := ceilSubSqrt b R
    let yrb := floorAddSqrt b R
    forLoop 1 yrb (yBody R x) (loopFuel yra yrb) yra

/-- The lattice generator `WatermanPoly::genPoly(radius)`: the points pushed to
`coords`, in order. -/
def genPoly (radius : ℚ) : List Point3d :=
  let s : ℚ := radius
  let radius2 : ℚ := radius * radius
  let xra : ℤ := ⌈(a : ℚ) - s⌉
  let xrb : ℤ := ⌊(a : ℚ) + s⌋
  forLoop 1 xrb (xBody radius2) (loopFuel xra xrb) xra

/-- `WatermanPoly::genHull(radius)`: the hull built from the generated cloud.  The hull
builder `QuickHull3D(poly)` is outside this development and is a parameter. -/
def genHull {Hull : Type} (buildHull : List Point3d → Hull) (radius : ℚ) : Hull :=
  let poly := genPoly radius
  buildHull poly

/-! ## `genPoly` run on a given fuel, with the argument of `sqrt` checked -/

/-- `typedef long Intsw`.  Every value stored in it here is a container size or an index
below one, which a 64-bit `long` holds without wrapping. -/
abbrev Intsw : Type := ℤ

/-- `__DBL_MAX__`, the largest finite `double`: `(2 - 2^(-52)) * 2^1023`. -/
def DBL_MAX : ℚ := 2 ^ 1024 - 2 ^ 971

/-- `calloc(n, sizeof(T))`: a fresh buffer of `n` entries, all zero. -/
def calloc {α : Type} [Zero α] (n : Intsw) : List α := List.replicate n.toNat 0

/-- The read `buf[i]`; `none` when `i` is outside the buffer. -/
def readAt {α : Type} (buf : List α) (i : Intsw) : Option α :=
  if 0 ≤ i then buf[i.toNat]? else none

/-- The write `buf[i] = v`; `none` when `i` is outside the buffer. -/
def writeAt {α : Type} (buf : List α) (i : Intsw) (v : α) : Option (List α) :=
  if 0 ≤ i ∧ i < buf.length then some (buf.set i.toNat v) else none

/-- The division `v / d` of `coords[i] /= diff`; `none` for a zero divisor. -/
def divide (v d : ℚ) : Option ℚ := if d = 0 then none else some (v / d)

/-- First loop of `normalizeCoords`, `for (i = 0; i < nc3; i++)`, with `n = nc3 - i`
iterations left: the running `(maxc, minc)`. -/
def scanMaxMin (coords : List ℚ) : ℕ → Intsw → ℚ × ℚ → Option (ℚ × ℚ)
  | 0, _, mm => some mm
  | n + 1, i, (maxc, minc) =>
    (readAt coords i).bind fun v => scanMaxMin coords n (i + 1) (max maxc v, min minc v)

/-- Second loop of `normalizeCoords`, `for (i = 0; i < nc3; i++) coords[i] /= diff`, with
`n = nc3 - i` iterations left. -/
def scaleLoop (diff : ℚ) : ℕ → Intsw → List ℚ → Option (List ℚ)
  | 0, _, coords => some coords
  | n + 1, i, coords =>
    (readAt coords i).bind fun v =>
      (divide v diff).bind fun q =>
        (writeAt coords i q).bind fun coords1 => scaleLoop diff n (i + 1) coords1

/-- `Local::normalizeCoords(coords, nc3)`; `abs` is the absolute value of a `double`. -/
def normalizeCoords (coords : List ℚ) (nc3 : Intsw) : Option (List ℚ) :=
  (scanMaxMin coords nc3.toNat 0 (-DBL_MAX, DBL_MAX)).bind fun mm =>
    let diff : ℚ := |mm.1 - mm.2|
    if diff ≠ 0 then scaleLoop diff nc3.toNat 0 coords else some coords

/-- The loop of `copyCoords`, `for (i = 0, j = 0; i < points.size(); i++, j += 3)`, over
the points from position `i` on. -/
def copyCoordsLoop : List Point3d → ℕ → List ℚ → Option (List ℚ)
  | [], _, coords => some coords
  | pnt :: rest, j, coords =>
    (writeAt coords ((j + 0 : ℕ) : ℤ) pnt.x).bind fun coords1 =>
      (writeAt coords1 ((j + 1 : ℕ) : ℤ) pnt.y).bind fun coords2 =>
        (writeAt coords2 ((j + 2 : ℕ) : ℤ) pnt.z).bind fun coords3 =>
          copyCoordsLoop rest (j + 3) coords3

/-- `Local::copyCoords(points)`. -/
def copyCoords (points : List Point3d) : Option (List ℚ) :=
  let nc3 : Intsw := ((points.length * 3 : ℕ) : ℤ)
  copyCoordsLoop points 0 (calloc nc3)

/-- `Local::genNormalizedCoords(points)`. -/
def genNormalizedCoords (points : List Point3d) : Option (List ℚ) :=
  (copyCoords points).bind fun coords => normalizeCoords coords ((points.length * 3 : ℕ) : ℤ)

/-- `Local::sumFaces(_faces)`. -/
def sumFaces (_faces : List (List ℤ)) : Intsw :=
  _faces.foldl (fun sumFaceIx f => sumFaceIx + (f.length : ℤ)) (_faces.length : ℤ)

/-- The statement `faces[ixf++] = v` on the state `(faces, ixf)`. -/
def store (st : List Intsw × Intsw) (v : Intsw) : Option (List Intsw × Intsw) :=
  (writeAt st.1 st.2 v).map fun faces => (faces, st.2 + 1)

/-- The inner loop of `genFaces`: `for (auto _f : _face) faces[ixf++] = _f`. -/
def storeIndices : List ℤ → List Intsw × Intsw → Option (List Intsw × Intsw)
  | [], st => some st
  | _f :: rest, st => (store st _f).bind (storeIndices rest)

/-- The outer loop of `genFaces`: for every face, its size and then its indices. -/
def storeFaces : List (List ℤ) → List Intsw × Intsw → Option (List Intsw × Intsw)
  | [], st => some st
  | _face :: rest, st =>
    (store st (_face.length : ℤ)).bind fun st1 =>
      (storeIndices _face st1).bind (storeFaces rest)

/-- The run of `genFaces` on a given initial buffer: the buffer and the final `ixf`. -/
def genFacesFrom (buf : List Intsw) (_faces : List (List ℤ)) : Option (List Intsw × Intsw) :=
  storeFaces _faces (buf, 0)

/-- `Local::genFaces(_faces)`: the returned buffer, allocated with `sumFaces(_faces)`
entries. -/
def genFaces (_faces : List (List ℤ)) : Option (List Intsw) :=
  (genFacesFrom (calloc (sumFaces _faces)) _faces).map Prod.fst

/-- The part of a `QuickHull3D` value that `genWaterman` uses: the results of `check()`,
`getFaces()`, `getNumVertices()` and `getVertices()`. -/
structure QuickHull3D where
  check : Bool
  getFaces : List (List ℤ)
  getNumVertices : ℤ
  getVertices : List Point3d

/-- The four output parameters of `genWaterman`: what `*nFaces`, `*__faces`, `*nCoords`
and `*__coords` hold (a buffer pointer is represented by the buffer). -/
structure Outputs where
  nFaces : Intsw
  faces : List Intsw
  nCoords : Intsw
  coords : List ℚ
deriving DecidableEq

/-- `genWaterman(radius, nFaces, __faces, nCoords, __coords)`: the returned value and the
output parameters afterwards, given what they held before. -/
def genWaterman (buildHull : List Point3d → QuickHull3D) (radius : ℚ) (out : Outputs) :
    Option (Intsw × Outputs) :=
  let hull := genHull buildHull radius
  let ok := hull.check
  if ok then
    let faces := hull.getFaces
    let nCoords := hull.getNumVertices
    let nFaces := sumFaces faces
    (genNormalizedCoords hull.getVertices).bind fun coords =>
      (genFaces faces).bind fun fbuf =>
        some (1, { nFaces := nFaces, faces := fbuf, nCoords := nCoords, coords := coords })
  else some (0, out)

/-! ## Notions used to state the properties -/

/-- The flat face encoding as the interface describes it: every face is its vertex
count followed by its indices, and the faces follow each other in order. -/
def encodeFaces (faces : List (List ℤ)) : List Intsw :=
  faces.flatMap fun f => (f.length : ℤ) :: f

/-- The decoder of the flat face encoding: read a count `n`, then `n` indices, and
repeat until the buffer is used up.  `fuel` bounds the number of faces read. -/
def decodeFaces : ℕ → List Intsw → Option (List (List ℤ))
  | _, [] => some []
  | 0, _ :: _ => none
  | fuel + 1, n :: rest =>
    if 0 ≤ n ∧ n.toNat ≤ rest.length then
      (decodeFaces fuel (rest.drop n.toNat)).map fun fs => rest.take n.toNat :: fs
    else none

/-- The flat coordinate layout as the interface describes it: the `x`, `y`, `z` of every
vertex consecutive, the vertices in order. -/
def flatCoords (points : List Point3d) : List ℚ :=
  points.flatMap fun pnt => [pnt.x, pnt.y, pnt.z]

/-- The six unit-axis lattice points. -/
def unitAxisPoints : List Point3d :=
  [⟨1, 0, 0⟩, ⟨-1, 0, 0⟩, ⟨0, 1, 0⟩, ⟨0, -1, 0⟩, ⟨0, 0, 1⟩, ⟨0, 0, -1⟩]

/-- The point as a vector of `ℚ × ℚ × ℚ`. -/
def toVec (p : Point3d) : ℚ × ℚ × ℚ := (p.x, p.y, p.z)

/-- The set of the vectors of the points of a cloud. -/
def cloudSet (cloud : List Point3d) : Set (ℚ × ℚ × ℚ) := {v | ∃ p ∈ cloud, toVec p = v}

/-- The six axis points at distance `2`. -/
def axisPoints2 : List Point3d :=
  [⟨2, 0, 0⟩, ⟨-2, 0, 0⟩, ⟨0, 2, 0⟩, ⟨0, -2, 0⟩, ⟨0, 0, 2⟩, ⟨0, 0, -2⟩]

/-- The twelve points that are permutations of `(±1, ±1, 0)`. -/
def edgePoints2 : List Point3d :=
  [⟨1, 1, 0⟩, ⟨1, -1, 0⟩, ⟨-1, 1, 0⟩, ⟨-1, -1, 0⟩,
   ⟨1, 0, 1⟩, ⟨1, 0, -1⟩, ⟨-1, 0, 1⟩, ⟨-1, 0, -1⟩,
   ⟨0, 1, 1⟩, ⟨0, 1, -1⟩, ⟨0, -1, 1⟩, ⟨0, -1, -1⟩]

/-- The solid octahedron `|x| + |y| + |z| ≤ 2`. -/
def octahedron : Set (ℚ × ℚ × ℚ) := {v | |v.1| + |v.2.1| + |v.2.2| ≤ 2}

theorem fmod_two_eq_zero_iff (v : ℤ) : fmod v 2 = 0 ↔ v % 2 = 0 := by
  unfold fmod
  rw [← Int.dvd_iff_tmod_eq_zero, Int.dvd_iff_emod_eq_zero]

theorem natAbs_le_iff_bounds (z : ℤ) (s : ℕ) : z.natAbs ≤ s ↔ -(s : ℤ) ≤ z ∧ z ≤ (s : ℤ) := by
  omega

/-- An integer `z` satisfies `z * z ≤ R` exactly when it lies between `-⌊√R⌋` and
`⌊√R⌋`, the latter computed as the integer square root of `⌊R⌋`. -/
theorem mul_self_le_iff_sqrt_bounds (z : ℤ) (R : ℚ) (hR : 0 ≤ R) :
    (z : ℚ) * z ≤ R ↔ -(Nat.sqrt ⌊R⌋₊ : ℤ) ≤ z ∧ z ≤ (Nat.sqrt ⌊R⌋₊ : ℤ) := by
  rw [← natAbs_le_iff_bounds, Nat.le_sqrt, Nat.le_floor_iff hR]
  have h : ((z.natAbs * z.natAbs : ℕ) : ℚ) = (z : ℚ) * z := by
    rw [Nat.cast_mul, Nat.cast_natAbs, Int.cast_abs, abs_mul_abs_self]
  rw [h]

/-- The definition `floorAddSqrt` computes `floor(c + sqrt(R))` over the reals. -/
theorem floorAddSqrt_eq_real (c : ℤ) (R : ℚ) (hR : 0 ≤ R) :
    ⌊(c : ℝ) + Real.sqrt (R : ℝ)⌋ = floorAddSqrt c R := by
  have hR' : (0 : ℝ) ≤ (R : ℝ) := by exact_mod_cast hR
  have hs : ⌊Real.sqrt (R : ℝ)⌋ = (Nat.sqrt ⌊R⌋₊ : ℤ) := by
    rw [Int.floor_eq_iff]
    constructor
    · rw [Int.cast_natCast, Real.le_sqrt (Nat.cast_nonneg _) hR']
      have h1 : Nat.sqrt ⌊R⌋₊ * Nat.sqrt ⌊R⌋₊ ≤ ⌊R⌋₊ := Nat.sqrt_le _
      have h2 : ((⌊R⌋₊ : ℕ) : ℚ) ≤ R := Nat.floor_le hR
      have h3 : ((Nat.sqrt ⌊R⌋₊ * Nat.sqrt ⌊R⌋₊ : ℕ) : ℚ) ≤ R :=
        le_trans (by exact_mod_cast h1) h2
      have h4 : ((Nat.sqrt ⌊R⌋₊ * Nat.sqrt ⌊R⌋₊ : ℕ) : ℝ) ≤ (R : ℝ) := by exact_mod_cast h3
      rw [sq]
      exact_mod_cast h4
    · rw [Int.cast_natCast]
      have hpos : (0 : ℝ) < (Nat.sqrt ⌊R⌋₊ : ℝ) + 1 := by positivity
      rw [Real.sqrt_lt' hpos]
      have h1 : ⌊R⌋₊ < (Nat.sqrt ⌊R⌋₊ + 1) * (Nat.sqrt ⌊R⌋₊ + 1) := Nat.lt_succ_sqrt _
      have h2 : R < ((⌊R⌋₊ : ℕ) : ℚ) + 1 := Nat.lt_floor_add_one R
      have h3 : ((⌊R⌋₊ : ℕ) : ℚ) + 1 ≤ (((Nat.sqrt ⌊R⌋₊ + 1) * (Nat.sqrt ⌊R⌋₊ + 1) : ℕ) : ℚ) := by
        exact_mod_cast h1
      have h4 : R < (((Nat.sqrt ⌊R⌋₊ + 1) * (Nat.sqrt ⌊R⌋₊ + 1) : ℕ) : ℚ) := lt_of_lt_of_le h2 h3
      have h5 : (R : ℝ) < (((Nat.sqrt ⌊R⌋₊ + 1) * (Nat.sqrt ⌊R⌋₊ + 1) : ℕ) : ℝ) := by
        exact_mod_cast h4
      rw [sq]
      exact_mod_cast h5
  rw [Int.floor_int_add, hs, floorAddSqrt]

/-- The definition `ceilSubSqrt` computes `ceil(c - sqrt(R))` over the reals. -/
theorem ceilSubSqrt_eq_real (c : ℤ) (R : ℚ) (hR : 0 ≤ R) :
    ⌈(c : ℝ) - Real.sqrt (R : ℝ)⌉ = ceilSubSqrt c R := by
  have h := floorAddSqrt_eq_real (-c) R hR
  have e : (c : ℝ) - Real.sqrt (R : ℝ) = -(((-c : ℤ) : ℝ) + Real.sqrt (R : ℝ)) := by
    push_cast; ring
  rw [e, Int.ceil_neg, h, floorAddSqrt, ceilSubSqrt]
  ring

/-! ## Facts about `forLoop` -/

/-- Membership in the points produced by a loop with a non-negative step. -/
theorem mem_forLoop (step hi : ℤ) (body : ℤ → List Point3d) (hstep : 0 ≤ step) (p : Point3d) :
    ∀ (fuel : ℕ) (v : ℤ), p ∈ forLoop step hi body fuel v ↔
      ∃ k : ℕ, k < fuel ∧ v + step * k ≤ hi ∧ p ∈ body (v + step * k) := by
  intro fuel
  induction fuel with
  | zero => intro v; simp [forLoop]
  | succ n ih =>
    intro v
    rw [forLoop]
    split_ifs with hv
    · rw [List.mem_append, ih]
      constructor
      · rintro (h | ⟨k, hk, hle, hp⟩)
        · exact ⟨0, by omega, by simpa using hv, by simpa using h⟩
        · refine ⟨k + 1, by omega, ?_, ?_⟩
          · push_cast; rw [show v + step * ((k : ℤ) + 1) = v + step + step * k by ring]; exact hle
          · push_cast; rw [show v + step * ((k : ℤ) + 1) = v + step + step * k by ring]; exact hp
      · rintro ⟨k, hk, hle, hp⟩
        cases k with
        | zero => left; simpa using hp
        | succ j =>
          right
          refine ⟨j, by omega, ?_, ?_⟩
          · push_cast at hle; rw [show v + step + step * (j : ℤ) = v + step * ((j : ℤ) + 1) by ring]; exact hle
          · push_cast at hp; rw [show v + step + step * (j : ℤ) = v + step * ((j : ℤ) + 1) by ring]; exact hp
    · constructor
      · intro h; simp at h
      · rintro ⟨k, -, hle, -⟩
        exfalso
        have : 0 ≤ step * (k : ℤ) := mul_nonneg hstep (by positivity)
        omega

/-- With the fuel computed from the bounds, a loop with a positive step reaches every
counter value up to `hi`. -/
theorem mem_forLoop_loopFuel (step lo hi : ℤ) (body : ℤ → List Point3d) (hstep : 1 ≤ step)
    (p : Point3d) :
    p ∈ forLoop step hi body (loopFuel lo hi) lo ↔
      ∃ k : ℕ, lo + step * k ≤ hi ∧ p ∈ body (lo + step * k) := by
  rw [mem_forLoop step hi body (by omega) p]
  constructor
  · rintro ⟨k, -, h1, h2⟩; exact ⟨k, h1, h2⟩
  · rintro ⟨k, h1, h2⟩
    refine ⟨k, ?_, h1, h2⟩
    have : (k : ℤ) ≤ step * k := by nlinarith [Int.natCast_nonneg k]
    unfold loopFuel
    omega

theorem mem_zLoop (x y zra zrb : ℤ) (p : Point3d) :
    p ∈ zLoop x y zra zrb ↔ ∃ k : ℕ, zra + 2 * k ≤ zrb ∧ p = ⟨x, y, ((zra + 2 * k : ℤ) : ℚ)⟩ := by
  unfold zLoop
  rw [mem_forLoop_loopFuel 2 zra zrb _ (by norm_num) p]
  simp only [List.mem_singleton]

/-- What the parity correction returns: a start of the parity of `x + y`, which is the
unadjusted bound when that already has the parity, and its neighbour towards the centre
otherwise. -/
theorem adjustZra_spec (x y zra : ℤ) :
    (adjustZra x y zra + x + y) % 2 = 0 ∧
      ((zra + x + y) % 2 = 0 → adjustZra x y zra = zra) ∧
      ((zra + x + y) % 2 ≠ 0 → zra ≤ c → adjustZra x y zra = zra + 1) ∧
      ((zra + x + y) % 2 ≠ 0 → c < zra → adjustZra x y zra = zra - 1) := by
  unfold adjustZra
  simp only [fmod_two_eq_zero_iff, ne_eq]
  split_ifs <;> refine ⟨?_, ?_, ?_, ?_⟩ <;> intros <;> omega

theorem mem_yBody (R : ℚ) (x y : ℤ) (p : Point3d) :
    p ∈ yBody R x y ↔
      ∃ z : ℤ, p = ⟨x, y, z⟩ ∧ (y : ℚ) * y + (z : ℚ) * z ≤ R ∧ (x + y + z) % 2 = 0 := by
  have hsq : ∀ z : ℤ, (0 : ℚ) ≤ (z : ℚ) * z := fun z => mul_self_nonneg _
  unfold yBody
  simp only [b, c, Int.cast_zero, sub_zero, Int.floor_zero, and_true, add_zero]
  by_cases h1 : R - (y : ℚ) * y < 0
  · rw [if_pos h1]
    constructor
    · intro h; simp at h
    · rintro ⟨z, -, hz, -⟩
      have := hsq z
      linarith
  · rw [if_neg h1]
    by_cases h2 : R - (y : ℚ) * y = 0
    · rw [if_pos h2]
      by_cases h3 : fmod (x + y) 2 ≠ 0
      · rw [if_pos h3]
        constructor
        · intro h; simp at h
        · rintro ⟨z, -, hz, hpar⟩
          exfalso
          have hz0 : (z : ℚ) * z = 0 := le_antisymm (by linarith) (hsq z)
          have hz1 : z = 0 := by
            have : (z : ℚ) = 0 := mul_self_eq_zero.mp hz0
            exact_mod_cast this
          rw [ne_eq, fmod_two_eq_zero_iff] at h3
          subst hz1
          omega
      · rw [if_neg h3, mem_zLoop]
        rw [ne_eq, not_not, fmod_two_eq_zero_iff] at h3
        constructor
        · rintro ⟨k, hk, rfl⟩
          have hk0 : k = 0 := by omega
          subst hk0
          refine ⟨0, by simp, ?_, by omega⟩
          simp only [Int.cast_zero, mul_zero, add_zero]
          linarith
        · rintro ⟨z, rfl, hz, -⟩
          have hz0 : (z : ℚ) * z = 0 := le_antisymm (by linarith) (hsq z)
          have hz1 : z = 0 := by
            have : (z : ℚ) = 0 := mul_self_eq_zero.mp hz0
            exact_mod_cast this
          subst hz1
          exact ⟨0, by simp, by simp⟩
    · rw [if_neg h2, mem_zLoop]
      have hRy : 0 ≤ R - (y : ℚ) * y := not_lt.mp h1
      obtain ⟨hpar, hsame, hup, -⟩ := adjustZra_spec x y (ceilSubSqrt 0 (R - (y : ℚ) * y))
      have hbounds := fun z : ℤ => mul_self_le_iff_sqrt_bounds z (R - (y : ℚ) * y) hRy
      unfold ceilSubSqrt at hpar hsame hup ⊢
      unfold floorAddSqrt
      simp only [c] at hup
      constructor
      · rintro ⟨k, hk, rfl⟩
        refine ⟨_, rfl, ?_, by omega⟩
        have hz := (hbounds (adjustZra x y (0 - (Nat.sqrt ⌊R - (y : ℚ) * y⌋₊ : ℤ)) + 2 * (k : ℤ))).mpr
          (by
            by_cases hp : ((0 - (Nat.sqrt ⌊R - (y : ℚ) * y⌋₊ : ℤ)) + x + y) % 2 = 0
            · have := hsame hp
              omega
            · have := hup hp (by omega)
              omega)
        linarith
      · rintro ⟨z, rfl, hz, hzpar⟩
        have hz' := (hbounds z).mp (by linarith)
        have hle : adjustZra x y (0 - (Nat.sqrt ⌊R - (y : ℚ) * y⌋₊ : ℤ)) ≤ z := by
          by_cases hp : ((0 - (Nat.sqrt ⌊R - (y : ℚ) * y⌋₊ : ℤ)) + x + y) % 2 = 0
          · have := hsame hp
            omega
          · have := hup hp (by omega)
            omega
        refine ⟨((z - adjustZra x y (0 - (Nat.sqrt ⌊R - (y : ℚ) * y⌋₊ : ℤ))) / 2).toNat, ?_, ?_⟩
        · omega
        · congr 2
          omega

theorem mem_xBody (radius2 : ℚ) (x : ℤ) (p : Point3d) :
    p ∈ xBody radius2 x ↔
      ∃ y z : ℤ, p = ⟨x, y, z⟩ ∧ (x : ℚ) * x + (y : ℚ) * y + (z : ℚ) * z ≤ radius2 ∧
        (x + y + z) % 2 = 0 := by
  have hsq : ∀ z : ℤ, (0 : ℚ) ≤ (z : ℚ) * z := fun z => mul_self_nonneg _
  unfold xBody
  simp only [a, b, Int.cast_zero, sub_zero]
  by_cases h1 : radius2 - (x : ℚ) * x < 0
  · rw [if_pos h1]
    constructor
    · intro h; simp at h
    · rintro ⟨y, z, -, hz, -⟩
      have := hsq y
      have := hsq z
      linarith
  · rw [if_neg h1, mem_forLoop_loopFuel 1 _ _ _ (le_refl 1) p]
    have hR : 0 ≤ radius2 - (x : ℚ) * x := not_lt.mp h1
    have hbounds := fun y : ℤ => mul_self_le_iff_sqrt_bounds y (radius2 - (x : ℚ) * x) hR
    unfold ceilSubSqrt floorAddSqrt
    constructor
    · rintro ⟨k, -, hp⟩
      rw [mem_yBody] at hp
      obtain ⟨z, rfl, hz, hpar⟩ := hp
      exact ⟨_, z, rfl, by linarith, hpar⟩
    · rintro ⟨y, z, rfl, hz, hpar⟩
      have hy := (hbounds y).mp (by have := hsq z; linarith)
      refine ⟨(y + (Nat.sqrt ⌊radius2 - (x : ℚ) * x⌋₊ : ℤ)).toNat, by omega, ?_⟩
      have e : (0 - (Nat.sqrt ⌊radius2 - (x : ℚ) * x⌋₊ : ℤ)) +
          1 * (((y + (Nat.sqrt ⌊radius2 - (x : ℚ) * x⌋₊ : ℤ)).toNat : ℕ) : ℤ) = y := by omega
      rw [e, mem_yBody]
      exact ⟨z, rfl, by linarith, hpar⟩

/-- The points of `genPoly radius`: the radius is non-negative and the point is an
integer point inside or on the sphere whose coordinate sum is even. -/
theorem mem_genPoly_iff (radius : ℚ) (p : Point3d) :
    p ∈ genPoly radius ↔
      0 ≤ radius ∧ ∃ x y z : ℤ, p = ⟨x, y, z⟩ ∧
        (x : ℚ) * x + (y : ℚ) * y + (z : ℚ) * z ≤ radius * radius ∧ (x + y + z) % 2 = 0 := by
  have hsq : ∀ z : ℤ, (0 : ℚ) ≤ (z : ℚ) * z := fun z => mul_self_nonneg _
  unfold genPoly
  simp only [a, Int.cast_zero, zero_sub, zero_add]
  rw [mem_forLoop_loopFuel 1 _ _ _ (le_refl 1) p]
  constructor
  · rintro ⟨k, hk, hp⟩
    rw [mem_xBody] at hp
    refine ⟨?_, _, hp⟩
    have h1 : ⌈-radius⌉ ≤ ⌊radius⌋ := by
      have : (0 : ℤ) ≤ 1 * (k : ℤ) := by positivity
      omega
    have h2 : -radius ≤ (⌈-radius⌉ : ℚ) := Int.le_ceil _
    have h3 : (⌊radius⌋ : ℚ) ≤ radius := Int.floor_le _
    have h4 : (⌈-radius⌉ : ℚ) ≤ (⌊radius⌋ : ℚ) := by exact_mod_cast h1
    linarith
  · rintro ⟨hr, x, y, z, rfl, hz, hpar⟩
    have hx : (x : ℚ) * x ≤ radius * radius := by
      have := hsq y
      have := hsq z
      linarith
    have hx' := abs_le_of_sq_le_sq' (by simpa [sq] using hx) hr
    have hlo : ⌈-radius⌉ ≤ x := Int.ceil_le.mpr hx'.1
    have hhi : x ≤ ⌊radius⌋ := Int.le_floor.mpr hx'.2
    refine ⟨(x - ⌈-radius⌉).toNat, by omega, ?_⟩
    have e : ⌈-radius⌉ + 1 * (((x - ⌈-radius⌉).toNat : ℕ) : ℤ) = x := by omega
    rw [e, mem_xBody]
    exact ⟨y, z, rfl, hz, hpar⟩

/-! ## Order of the output of `genPoly` -/

/-- C1: for every radius `r ≥ 0`, the points emitted by `genPoly r` are exactly the
integer points `(x, y, z)` with `x² + y² + z² ≤ r²` and `x + y + z` even: each such
point is emitted and nothing else is. -/
theorem genPoly_mem_iff_even_lattice_point_in_ball (radius : ℚ) (hr : 0 ≤ radius)
    (p : Point3d) :
    p ∈ genPoly radius ↔
      ∃ x y z : ℤ, p = ⟨x, y, z⟩ ∧
        (x : ℚ) ^ 2 + (y : ℚ) ^ 2 + (z : ℚ) ^ 2 ≤ radius ^ 2 ∧ (x + y + z) % 2 = 0 := by
  rw [mem_genPoly_iff]
  simp only [sq]
  exact ⟨fun h => h.2, fun h => ⟨hr, h⟩⟩

/-- Instance of C1 at radius `2` and the point `(1, -1, 0)`. -/
theorem genPoly_mem_iff_even_lattice_point_in_ball_witness :
    (0 : ℚ) ≤ 2 ∧
      ((⟨1, -1, 0⟩ : Point3d) ∈ genPoly 2 ↔
        ∃ x y z : ℤ, (⟨1, -1, 0⟩ : Point3d) = ⟨x, y, z⟩ ∧
          (x : ℚ) ^ 2 + (y : ℚ) ^ 2 + (z : ℚ) ^ 2 ≤ (2 : ℚ) ^ 2 ∧ (x + y + z) % 2 = 0) :=
  ⟨by norm_num, genPoly_mem_iff_even_lattice_point_in_ball 2 (by norm_num) ⟨1, -1, 0⟩⟩

/-- C2: for every radius `r > 0`, every point emitted by `genPoly r` lies within or on
the sphere of radius `r` about the origin: `x² + y² + z² ≤ r²`. -/
theorem genPoly_within_sphere (radius : ℚ) (_hr : 0 < radius) (p : Point3d)
    (hp : p ∈ genPoly radius) : p.x ^ 2 + p.y ^ 2 + p.z ^ 2 ≤ radius ^ 2 := by
  rw [mem_genPoly_iff] at hp
  obtain ⟨-, x, y, z, rfl, h, -⟩ := hp
  simp only [sq]
  exact h

/-- Instance of C2 at radius `2` and the emitted point `(0, 0, 2)`. -/
theorem genPoly_within_sphere_witness :
    (0 : ℚ) < 2 ∧ (⟨0, 0, 2⟩ : Point3d) ∈ genPoly 2 ∧
      (⟨0, 0, 2⟩ : Point3d).x ^ 2 + (⟨0, 0, 2⟩ : Point3d).y ^ 2 + (⟨0, 0, 2⟩ : Point3d).z ^ 2
        ≤ (2 : ℚ) ^ 2 :=
  ⟨by norm_num, by decide!, genPoly_within_sphere 2 (by norm_num) ⟨0, 0, 2⟩ (by decide!)⟩

/-- C4 as stated fails: at radius `1` the emitted set is not the set of the six
unit-axis points; `(1, 0, 0)` is not emitted. -/
theorem genPoly_one_ne_unitAxisPoints :
    ¬ (∀ p : Point3d, p ∈ genPoly 1 ↔ p ∈ unitAxisPoints) := by
  intro h
  have h1 : (⟨1, 0, 0⟩ : Point3d) ∈ unitAxisPoints := by decide!
  have h2 : (⟨1, 0, 0⟩ : Point3d) ∉ genPoly 1 := by decide!
  exact h2 ((h _).mpr h1)

/-- C4, amended: at radius `1` the sequence emitted by `genPoly` is the single point
`(0, 0, 0)`, and none of the six unit-axis points, whose coordinate sum is odd, is
emitted. -/
theorem genPoly_one_eq_origin :
    genPoly 1 = [⟨0, 0, 0⟩] ∧ ∀ p ∈ unitAxisPoints, p ∉ genPoly 1 := by
  decide!

/-- C5 as stated fails: the radius `0` is `≤ 0` and `genPoly 0` is not empty. -/
theorem genPoly_nonpos_not_always_empty : ¬ (∀ r : ℚ, r ≤ 0 → genPoly r = []) := by
  intro h
  have h0 : genPoly 0 = [] := h 0 (le_refl 0)
  have h1 : genPoly 0 ≠ [] := by decide!
  exact h1 h0

/-- C5, amended: for every radius `r < 0`, `genPoly r` is the empty sequence, and
for `r = 0` it is the one-point sequence `(0, 0, 0)`. -/
theorem genPoly_of_nonpos (radius : ℚ) (hr : radius ≤ 0) :
    genPoly radius = if radius = 0 then [⟨0, 0, 0⟩] else [] := by
  by_cases h0 : radius = 0
  · subst h0
    decide!
  · rw [if_neg h0, List.eq_nil_iff_forall_not_mem]
    intro p hp
    rw [mem_genPoly_iff] at hp
    exact h0 (le_antisymm hr hp.1)

/-- Instance of the amended C5 at radius `-1`. -/
theorem genPoly_of_nonpos_witness :
    (-1 : ℚ) ≤ 0 ∧ genPoly (-1) = if (-1 : ℚ) = 0 then [⟨0, 0, 0⟩] else [] :=
  ⟨by norm_num, genPoly_of_nonpos (-1) (by norm_num)⟩

theorem writeAt_at_length {α : Type} (pre suf : List α) (x v : α) :
    writeAt (pre ++ x :: suf) (pre.length : ℤ) v = some (pre ++ v :: suf) := by
  unfold writeAt
  have h : (0 : ℤ) ≤ (pre.length : ℤ) ∧ (pre.length : ℤ) < ((pre ++ x :: suf).length : ℤ) := by
    constructor
    · positivity
    · rw [List.length_append, List.length_cons]
      push_cast
      omega
  rw [if_pos h, Int.toNat_ofNat]
  simp

theorem readAt_at_length {α : Type} (pre suf : List α) (x : α) :
    readAt (pre ++ x :: suf) (pre.length : ℤ) = some x := by
  unfold readAt
  rw [if_pos (by positivity), Int.toNat_ofNat, List.getElem?_append_right (le_refl _)]
  simp

theorem store_at_length (pre suf : List Intsw) (x v : Intsw) :
    store (pre ++ x :: suf, (pre.length : ℤ)) v =
      some (pre ++ v :: suf, ((pre.length + 1 : ℕ) : ℤ)) := by
  unfold store
  simp only [writeAt_at_length, Option.map_some']
  push_cast
  rfl

/-! ## `sumFaces` and `genFaces` -/

theorem storeIndices_fill : ∀ (vs : List ℤ) (pre mid suf : List Intsw),
    mid.length = vs.length →
      storeIndices vs (pre ++ mid ++ suf, (pre.length : ℤ)) =
        some (pre ++ vs ++ suf, ((pre.length + vs.length : ℕ) : ℤ)) := by
  intro vs
  induction vs with
  | nil =>
    intro pre mid suf h
    have hm : mid = [] := List.length_eq_zero.mp h
    subst hm
    simp [storeIndices]
  | cons v vs ih =>
    intro pre mid suf h
    cases mid with
    | nil => simp at h
    | cons m mid =>
      have h1 : mid.length = vs.length := by simpa using h
      have e1 : pre ++ m :: mid ++ suf = pre ++ m :: (mid ++ suf) := by simp
      have e2 : pre ++ v :: (mid ++ suf) = (pre ++ [v]) ++ mid ++ suf := by simp
      have e3 : ((pre.length + 1 : ℕ) : ℤ) = (((pre ++ [v]).length : ℕ) : ℤ) := by simp
      rw [storeIndices, e1, store_at_length, Option.some_bind, e2, e3, ih _ _ _ h1]
      simp
      ring

theorem encodeFaces_cons (f : List ℤ) (fs : List (List ℤ)) :
    encodeFaces (f :: fs) = (f.length : ℤ) :: (f ++ encodeFaces fs) := by
  simp [encodeFaces, List.flatMap_cons]

theorem encodeFaces_nil : encodeFaces [] = [] := rfl

theorem storeFaces_fill : ∀ (fs : List (List ℤ)) (pre mid suf : List Intsw),
    mid.length = (encodeFaces fs).length →
      storeFaces fs (pre ++ mid ++ suf, (pre.length : ℤ)) =
        some (pre ++ encodeFaces fs ++ suf, ((pre.length + (encodeFaces fs).length : ℕ) : ℤ)) := by
  intro fs
  induction fs with
  | nil =>
    intro pre mid suf h
    have hm : mid = [] := List.length_eq_zero.mp (by simpa [encodeFaces_nil] using h)
    subst hm
    simp [storeFaces, encodeFaces_nil]
  | cons f fs ih =>
    intro pre mid suf h
    rw [encodeFaces_cons] at h ⊢
    cases mid with
    | nil => simp at h
    | cons m mid =>
      have hlen : mid.length = f.length + (encodeFaces fs).length := by
        simpa using h
      have hsplit : mid = mid.take f.length ++ mid.drop f.length := (List.take_append_drop _ _).symm
      have htake : (mid.take f.length).length = f.length := by
        rw [List.length_take]; omega
      have hdrop : (mid.drop f.length).length = (encodeFaces fs).length := by
        rw [List.length_drop]; omega
      have e1 : pre ++ m :: mid ++ suf = pre ++ m :: (mid ++ suf) := by simp
      have e2 : pre ++ (f.length : ℤ) :: (mid ++ suf) =
          (pre ++ [(f.length : ℤ)]) ++ mid.take f.length ++ (mid.drop f.length ++ suf) := by
        have e2a : mid ++ suf = mid.take f.length ++ (mid.drop f.length ++ suf) := by
          rw [← List.append_assoc, List.take_append_drop]
        rw [List.append_assoc, List.append_assoc, ← e2a]
        simp
      have e3 : ((pre.length + 1 : ℕ) : ℤ) = (((pre ++ [(f.length : ℤ)]).length : ℕ) : ℤ) := by
        simp
      rw [storeFaces, e1, store_at_length, Option.some_bind, e2, e3,
        storeIndices_fill f _ _ _ htake, Option.some_bind]
      have e4 : pre ++ [(f.length : ℤ)] ++ f ++ (mid.drop f.length ++ suf) =
          (pre ++ [(f.length : ℤ)] ++ f) ++ mid.drop f.length ++ suf := by simp
      have e5 : (((pre ++ [(f.length : ℤ)]).length + f.length : ℕ) : ℤ) =
          (((pre ++ [(f.length : ℤ)] ++ f).length : ℕ) : ℤ) := by
        simp only [List.length_append, List.length_singleton]
      rw [e4, e5, ih _ _ _ hdrop]
      simp
      ring

theorem foldl_add_length (fs : List (List ℤ)) : ∀ init : ℤ,
    fs.foldl (fun sumFaceIx f => sumFaceIx + (f.length : ℤ)) init =
      init + (((fs.map List.length).sum : ℕ) : ℤ) := by
  induction fs with
  | nil => intro init; simp
  | cons f fs ih =>
    intro init
    rw [List.foldl_cons, ih]
    simp only [List.map_cons, List.sum_cons]
    push_cast
    ring

theorem sumFaces_eq (fs : List (List ℤ)) :
    sumFaces fs = (fs.length : ℤ) + (((fs.map List.length).sum : ℕ) : ℤ) := by
  unfold sumFaces
  exact foldl_add_length fs _

theorem length_encodeFaces (fs : List (List ℤ)) :
    (encodeFaces fs).length = fs.length + (fs.map List.length).sum := by
  induction fs with
  | nil => simp [encodeFaces_nil]
  | cons f fs ih =>
    rw [encodeFaces_cons]
    simp only [List.length_cons, List.length_append, ih, List.map_cons, List.sum_cons]
    omega

theorem length_encodeFaces_eq_sumFaces (fs : List (List ℤ)) :
    ((encodeFaces fs).length : ℤ) = sumFaces fs := by
  rw [sumFaces_eq, length_encodeFaces]
  push_cast
  ring

/-- Started on any buffer of `sumFaces` entries, the run of `genFaces` overwrites every
entry, leaves the encoding in the buffer and ends with `ixf = sumFaces`. -/
theorem genFacesFrom_eq (fs : List (List ℤ)) (buf : List Intsw)
    (hbuf : (buf.length : ℤ) = sumFaces fs) :
    genFacesFrom buf fs = some (encodeFaces fs, sumFaces fs) := by
  have hlen : buf.length = (encodeFaces fs).length := by
    have := length_encodeFaces_eq_sumFaces fs
    omega
  have h := storeFaces_fill fs [] buf [] hlen
  simp only [List.nil_append, List.append_nil, List.length_nil, Nat.zero_add] at h
  unfold genFacesFrom
  rw [← length_encodeFaces_eq_sumFaces]
  exact_mod_cast h

theorem sumFaces_nonneg (fs : List (List ℤ)) : 0 ≤ sumFaces fs := by
  rw [← length_encodeFaces_eq_sumFaces]
  positivity

theorem length_calloc {α : Type} [Zero α] (n : Intsw) (hn : 0 ≤ n) :
    (((calloc n : List α).length : ℕ) : ℤ) = n := by
  unfold calloc
  rw [List.length_replicate]
  exact Int.toNat_of_nonneg hn

theorem genFaces_eq (fs : List (List ℤ)) : genFaces fs = some (encodeFaces fs) := by
  unfold genFaces
  rw [genFacesFrom_eq fs _ (length_calloc _ (sumFaces_nonneg fs))]
  rfl

theorem decodeFaces_encodeFaces : ∀ (fs : List (List ℤ)) (fuel : ℕ), fs.length ≤ fuel →
    decodeFaces fuel (encodeFaces fs) = some fs := by
  intro fs
  induction fs with
  | nil => intro fuel _; simp [encodeFaces_nil, decodeFaces]
  | cons f fs ih =>
    intro fuel hfuel
    cases fuel with
    | zero => simp at hfuel
    | succ n =>
      have hn : fs.length ≤ n := by simpa using hfuel
      rw [encodeFaces_cons, decodeFaces]
      have hc : (0 : ℤ) ≤ (f.length : ℤ) ∧ ((f.length : ℤ)).toNat ≤ (f ++ encodeFaces fs).length := by
        constructor
        · positivity
        · rw [Int.toNat_ofNat, List.length_append]; omega
      rw [if_pos hc, Int.toNat_ofNat, List.drop_left, List.take_left, ih n hn]
      rfl

/-! ## `copyCoords` -/

theorem writeAt_split {α : Type} (buf pre suf : List α) (x v : α) (i : ℕ)
    (hb : buf = pre ++ x :: suf) (hi : i = pre.length) :
    writeAt buf (i : ℤ) v = some (pre ++ v :: suf) := by
  subst hb hi
  exact writeAt_at_length pre suf x v

theorem flatCoords_cons (pnt : Point3d) (rest : List Point3d) :
    flatCoords (pnt :: rest) = pnt.x :: pnt.y :: pnt.z :: flatCoords rest := by
  simp [flatCoords, List.flatMap_cons]

theorem copyCoordsLoop_fill : ∀ (points : List Point3d) (pre mid suf : List ℚ),
    mid.length = 3 * points.length →
      copyCoordsLoop points pre.length (pre ++ mid ++ suf) =
        some (pre ++ flatCoords points ++ suf) := by
  intro points
  induction points with
  | nil =>
    intro pre mid suf h
    have hm : mid = [] := List.length_eq_zero.mp (by simpa using h)
    subst hm
    simp [copyCoordsLoop, flatCoords]
  | cons pnt rest ih =>
    intro pre mid suf h
    match mid, h with
    | [], h => simp at h
    | [_], h => simp at h; omega
    | [_, _], h => simp at h; omega
    | m0 :: m1 :: m2 :: mid, h =>
      have h1 : mid.length = 3 * rest.length := by
        simp only [List.length_cons] at h
        omega
      have w1 := writeAt_split (pre ++ (m0 :: m1 :: m2 :: mid) ++ suf) pre
        (m1 :: m2 :: (mid ++ suf)) m0 pnt.x (pre.length + 0) (by simp) (by simp)
      have w2 := writeAt_split (pre ++ pnt.x :: m1 :: m2 :: (mid ++ suf)) (pre ++ [pnt.x])
        (m2 :: (mid ++ suf)) m1 pnt.y (pre.length + 1) (by simp) (by simp)
      have w3 := writeAt_split ((pre ++ [pnt.x]) ++ pnt.y :: m2 :: (mid ++ suf))
        (pre ++ [pnt.x, pnt.y]) (mid ++ suf) m2 pnt.z (pre.length + 2) (by simp) (by simp)
      have e : (pre ++ [pnt.x, pnt.y]) ++ pnt.z :: (mid ++ suf) =
          (pre ++ [pnt.x, pnt.y, pnt.z]) ++ mid ++ suf := by simp
      have e1 : pre.length + 3 = (pre ++ [pnt.x, pnt.y, pnt.z]).length := by simp
      rw [copyCoordsLoop, w1, Option.some_bind, w2, Option.some_bind, w3, Option.some_bind,
        e, e1, ih _ _ _ h1, flatCoords_cons]
      simp

theorem copyCoords_eq (points : List Point3d) : copyCoords points = some (flatCoords points) := by
  unfold copyCoords
  have hlen : (calloc (((points.length * 3 : ℕ) : ℤ)) : List ℚ).length = 3 * points.length := by
    unfold calloc
    rw [List.length_replicate, Int.toNat_ofNat]
    omega
  have h := copyCoordsLoop_fill points [] _ [] hlen
  simpa using h

theorem length_flatCoords (points : List Point3d) :
    (flatCoords points).length = 3 * points.length := by
  induction points with
  | nil => simp [flatCoords]
  | cons pnt rest ih =>
    rw [flatCoords_cons]
    simp only [List.length_cons, ih]
    omega

theorem flatCoords_getElem? : ∀ (points : List Point3d) (i : ℕ),
    (flatCoords points)[3 * i]? = points[i]?.map Point3d.x ∧
      (flatCoords points)[3 * i + 1]? = points[i]?.map Point3d.y ∧
      (flatCoords points)[3 * i + 2]? = points[i]?.map Point3d.z := by
  intro points
  induction points with
  | nil => intro i; simp [flatCoords]
  | cons pnt rest ih =>
    intro i
    rw [flatCoords_cons]
    cases i with
    | zero => simp
    | succ k =>
      have e0 : 3 * (k + 1) = (3 * k + 2) + 1 := by omega
      have e1 : 3 * (k + 1) + 1 = (3 * k + 1 + 2) + 1 := by omega
      have e2 : 3 * (k + 1) + 2 = (3 * k + 2 + 2) + 1 := by omega
      obtain ⟨hx, hy, hz⟩ := ih k
      refine ⟨?_, ?_, ?_⟩
      · rw [e0]; simpa using hx
      · rw [e1]; simpa using hy
      · rw [e2]; simpa using hz

/-! ## `normalizeCoords` -/

theorem scanMaxMin_eq : ∀ (rest pre : List ℚ) (mm : ℚ × ℚ),
    scanMaxMin (pre ++ rest) rest.length (pre.length : ℤ) mm =
      some (rest.foldl max mm.1, rest.foldl min mm.2) := by
  intro rest
  induction rest with
  | nil => intro pre mm; simp [scanMaxMin]
  | cons v rest ih =>
    intro pre mm
    obtain ⟨maxc, minc⟩ := mm
    have e : pre ++ v :: rest = (pre ++ [v]) ++ rest := by simp
    have e1 : (pre.length : ℤ) + 1 = (((pre ++ [v]).length : ℕ) : ℤ) := by simp
    rw [List.length_cons, scanMaxMin, readAt_at_length, Option.some_bind, e1, e, ih]
    simp

theorem scaleLoop_eq (diff : ℚ) (hdiff : diff ≠ 0) : ∀ (rest pre : List ℚ),
    scaleLoop diff rest.length (pre.length : ℤ) (pre ++ rest) =
      some (pre ++ rest.map fun v => v / diff) := by
  intro rest
  induction rest with
  | nil => intro pre; simp [scaleLoop]
  | cons v rest ih =>
    intro pre
    have e : pre ++ (v / diff) :: rest = (pre ++ [v / diff]) ++ rest := by simp
    have e1 : (pre.length : ℤ) + 1 = (((pre ++ [v / diff]).length : ℕ) : ℤ) := by simp
    have hd : divide v diff = some (v / diff) := by
      unfold divide
      rw [if_neg hdiff]
    rw [List.length_cons, scaleLoop, readAt_at_length, Option.some_bind, hd,
      Option.some_bind, writeAt_at_length, Option.some_bind, e1, e, ih]
    simp

/-- On a buffer with its own length, `normalizeCoords` returns a result, and the
result is determined by the running maximum and minimum. -/
theorem normalizeCoords_eq (coords : List ℚ) :
    normalizeCoords coords (coords.length : ℤ) =
      some (if |coords.foldl max (-DBL_MAX) - coords.foldl min DBL_MAX| ≠ 0 then
        coords.map fun v => v / |coords.foldl max (-DBL_MAX) - coords.foldl min DBL_MAX|
      else coords) := by
  unfold normalizeCoords
  have h := scanMaxMin_eq coords [] (-DBL_MAX, DBL_MAX)
  simp only [List.nil_append, List.length_nil, Nat.cast_zero] at h
  rw [Int.toNat_ofNat, h, Option.some_bind]
  simp only []
  split_ifs with hd
  · have h2 := scaleLoop_eq _ hd coords []
    simpa using h2
  · rfl

theorem le_foldl_max (l : List ℚ) : ∀ a : ℚ, a ≤ l.foldl max a := by
  induction l with
  | nil => intro a; exact le_refl a
  | cons v l ih => intro a; exact le_trans (le_max_left a v) (ih _)

theorem foldl_min_le (l : List ℚ) : ∀ a : ℚ, l.foldl min a ≤ a := by
  induction l with
  | nil => intro a; exact le_refl a
  | cons v l ih => intro a; exact le_trans (ih _) (min_le_left a v)

theorem genNormalizedCoords_isSome (points : List Point3d) :
    ∃ coords, genNormalizedCoords points = some coords := by
  unfold genNormalizedCoords
  rw [copyCoords_eq, Option.some_bind]
  have h := normalizeCoords_eq (flatCoords points)
  rw [length_flatCoords, Nat.mul_comm] at h
  exact ⟨_, h⟩

/-! ## The export helpers: the stated properties -/

/-- C7: for every face list, the buffer produced by `genFaces` is the concatenation, in
face order, of the size of each face followed by its indices; the decoder that reads a
count `n` and then `n` indices, repeatedly, recovers the face list from it, and two
face lists with the same buffer are equal. -/
theorem genFaces_is_decodable_encoding (faces faces2 : List (List ℤ)) :
    genFaces faces = some (encodeFaces faces) ∧
      ((genFaces faces).bind fun buf => decodeFaces buf.length buf) = some faces ∧
      (genFaces faces = genFaces faces2 ↔ faces = faces2) := by
  have hlen : ∀ fs : List (List ℤ), fs.length ≤ (encodeFaces fs).length := by
    intro fs
    rw [length_encodeFaces]
    omega
  refine ⟨genFaces_eq faces, ?_, ?_⟩
  · rw [genFaces_eq, Option.some_bind]
    exact decodeFaces_encodeFaces faces _ (hlen faces)
  · constructor
    · intro h
      rw [genFaces_eq, genFaces_eq, Option.some.injEq] at h
      have h1 := decodeFaces_encodeFaces faces (faces.length + faces2.length)
        (Nat.le_add_right _ _)
      have h2 := decodeFaces_encodeFaces faces2 (faces.length + faces2.length)
        (Nat.le_add_left _ _)
      rw [h, h2, Option.some.injEq] at h1
      exact h1.symm
    · intro h
      rw [h]

/-- C8: for every face list, `sumFaces` returns the number of faces plus the sum of the
face sizes; the buffer `genFaces` allocates has that many entries; started on a buffer
of that length with any contents (`g` gives the contents, `calloc` gives zeros), the run
of `genFaces` succeeds, so no write is outside the buffer, ends with the write index
equal to `sumFaces`, and leaves a buffer of that length that does not depend on the
initial contents, so no entry is left unwritten; and `genWaterman`, when the check
succeeds, stores that buffer length in `*nFaces`. -/
theorem sumFaces_is_genFaces_length (faces : List (List ℤ)) (g : ℕ → Intsw)
    (buildHull : List Point3d → QuickHull3D) (radius : ℚ) (out : Outputs) :
    sumFaces faces = (faces.length : ℤ) + (((faces.map List.length).sum : ℕ) : ℤ) ∧
      (((calloc (sumFaces faces) : List Intsw).length : ℕ) : ℤ) = sumFaces faces ∧
      genFacesFrom ((List.range (sumFaces faces).toNat).map g) faces =
        some (encodeFaces faces, sumFaces faces) ∧
      genFacesFrom (calloc (sumFaces faces)) faces = some (encodeFaces faces, sumFaces faces) ∧
      (((encodeFaces faces).length : ℕ) : ℤ) = sumFaces faces ∧
      ∃ coords, genWaterman buildHull radius out =
        if (genHull buildHull radius).check = true then
          some (1, { nFaces := (((encodeFaces (genHull buildHull radius).getFaces).length : ℕ) : ℤ),
                     faces := encodeFaces (genHull buildHull radius).getFaces,
                     nCoords := (genHull buildHull radius).getNumVertices,
                     coords := coords })
        else some (0, out) := by
  refine ⟨sumFaces_eq faces, length_calloc _ (sumFaces_nonneg faces), ?_,
    genFacesFrom_eq faces _ (length_calloc _ (sumFaces_nonneg faces)),
    length_encodeFaces_eq_sumFaces faces, ?_⟩
  · refine genFacesFrom_eq faces _ ?_
    rw [List.length_map, List.length_range]
    exact Int.toNat_of_nonneg (sumFaces_nonneg faces)
  · obtain ⟨coords, hcoords⟩ := genNormalizedCoords_isSome (genHull buildHull radius).getVertices
    refine ⟨coords, ?_⟩
    unfold genWaterman
    simp only []
    split_ifs with hok
    · rw [hcoords, Option.some_bind, genFaces_eq, Option.some_bind,
        length_encodeFaces_eq_sumFaces]
    · rfl

/-- C9: for every vertex list of `n` points, `copyCoords` returns a buffer of exactly
`3 n` entries in which entries `3 i`, `3 i + 1`, `3 i + 2` are the `x`, `y`, `z` of the
`i`-th vertex (and there is no such entry when there is no `i`-th vertex). -/
theorem copyCoords_layout (points : List Point3d) (i : ℕ) :
    ∃ coords, copyCoords points = some coords ∧ coords.length = 3 * points.length ∧
      coords[3 * i]? = points[i]?.map Point3d.x ∧
      coords[3 * i + 1]? = points[i]?.map Point3d.y ∧
      coords[3 * i + 2]? = points[i]?.map Point3d.z :=
  ⟨flatCoords points, copyCoords_eq points, length_flatCoords points,
    flatCoords_getElem? points i⟩

/-- C10: for every coordinate buffer of finite `double` values, with the maximum and
the minimum taken over all its entries: when the buffer is empty or the two are equal,
`normalizeCoords` returns the buffer unchanged; otherwise every output entry is the
input entry divided by `max - min`.  The result is returned, so no division by zero
occurs (`divide` has no result for a zero divisor). -/
theorem normalizeCoords_divides_by_range (coords : List ℚ)
    (hfin : ∀ v ∈ coords, -DBL_MAX ≤ v ∧ v ≤ DBL_MAX) :
    normalizeCoords coords (coords.length : ℤ) =
      some (match coords.max?, coords.min? with
        | some maxc, some minc =>
          if maxc = minc then coords else coords.map fun v => v / (maxc - minc)
        | _, _ => coords) := by
  rw [normalizeCoords_eq]
  cases coords with
  | nil =>
    have h : |(-DBL_MAX) - DBL_MAX| ≠ 0 := by
      unfold DBL_MAX
      norm_num
    simp [h]
  | cons v rest =>
    obtain ⟨hlo, hhi⟩ := hfin v (List.mem_cons_self v rest)
    have hmax : (v :: rest).max? = some (rest.foldl max v) := rfl
    have hmin : (v :: rest).min? = some (rest.foldl min v) := rfl
    have hle : rest.foldl min v ≤ rest.foldl max v :=
      le_trans (foldl_min_le rest v) (le_foldl_max rest v)
    rw [hmax, hmin]
    simp only [List.foldl_cons, max_eq_right hlo, min_eq_right hhi]
    rw [abs_of_nonneg (sub_nonneg.mpr hle)]
    by_cases heq : rest.foldl max v = rest.foldl min v
    · rw [if_pos heq, if_neg (by rw [heq, sub_self]; exact fun h => h rfl)]
    · rw [if_neg heq, if_pos (sub_ne_zero.mpr heq)]

/-- Instance of C10 on the buffer `[1, 2, 4]`, whose range is `3`. -/
theorem normalizeCoords_divides_by_range_witness :
    (∀ v ∈ [(1 : ℚ), 2, 4], -DBL_MAX ≤ v ∧ v ≤ DBL_MAX) ∧
      normalizeCoords [1, 2, 4] 3 = some [1 / 3, 2 / 3, 4 / 3] :=
  ⟨by decide!, (normalizeCoords_divides_by_range [1, 2, 4] (by decide!)).trans (by decide!)⟩

/-! ## `genWaterman`: the validity flag -/

/-- C11: `genWaterman` returns a value, which is nonzero exactly when `hull.check()` is
true; when `check()` is false it returns `0` and the four output parameters hold what
they held before. -/
theorem genWaterman_returns_check (buildHull : List Point3d → QuickHull3D) (radius : ℚ)
    (out : Outputs) :
    ∃ res, genWaterman buildHull radius out = some res ∧
      (res.1 ≠ 0 ↔ (genHull buildHull radius).check = true) ∧
      ((genHull buildHull radius).check = true ∨ res = (0, out)) := by
  obtain ⟨coords, hcoords⟩ := genNormalizedCoords_isSome (genHull buildHull radius).getVertices
  unfold genWaterman
  simp only []
  by_cases hok : (genHull buildHull radius).check = true
  · rw [if_pos hok, hcoords, Option.some_bind, genFaces_eq, Option.some_bind]
    exact ⟨_, rfl, by simp [hok], Or.inl hok⟩
  · rw [if_neg hok]
    exact ⟨_, rfl, by simp [hok], Or.inr rfl⟩

/-! ## The lattice generator: further properties -/

theorem le_foldl_max_of_mem : ∀ (l : List ℚ) (v w : ℚ), w ∈ v :: l → w ≤ l.foldl max v := by
  intro l
  induction l with
  | nil =>
    intro v w hw
    rw [List.mem_singleton] at hw
    rw [hw]
    exact le_refl v
  | cons u l ih =>
    intro v w hw
    rw [List.foldl_cons]
    rcases List.mem_cons.mp hw with h | h
    · rw [h]
      exact le_trans (le_max_left v u) (le_foldl_max l _)
    · rcases List.mem_cons.mp h with h1 | h1
      · rw [h1]
        exact le_trans (le_max_right v u) (le_foldl_max l _)
      · exact ih _ w (List.mem_cons_of_mem _ h1)

theorem foldl_min_le_of_mem : ∀ (l : List ℚ) (v w : ℚ), w ∈ v :: l → l.foldl min v ≤ w := by
  intro l
  induction l with
  | nil =>
    intro v w hw
    rw [List.mem_singleton] at hw
    rw [hw]
    exact le_refl v
  | cons u l ih =>
    intro v w hw
    rw [List.foldl_cons]
    rcases List.mem_cons.mp hw with h | h
    · rw [h]
      exact le_trans (foldl_min_le l _) (min_le_left v u)
    · rcases List.mem_cons.mp h with h1 | h1
      · rw [h1]
        exact le_trans (foldl_min_le l _) (min_le_right v u)
      · exact ih _ w (List.mem_cons_of_mem _ h1)

theorem foldl_max_map_div (d : ℚ) (hd : 0 < d) : ∀ (l : List ℚ) (v : ℚ),
    (l.map fun w => w / d).foldl max (v / d) = l.foldl max v / d := by
  have hmono : Monotone fun w : ℚ => w / d :=
    fun _ _ h => div_le_div_of_nonneg_right h (le_of_lt hd)
  intro l
  induction l with
  | nil => intro v; rfl
  | cons u l ih =>
    intro v
    rw [List.map_cons, List.foldl_cons, List.foldl_cons, ← ih]
    congr 1
    exact (hmono.map_max).symm

theorem foldl_min_map_div (d : ℚ) (hd : 0 < d) : ∀ (l : List ℚ) (v : ℚ),
    (l.map fun w => w / d).foldl min (v / d) = l.foldl min v / d := by
  have hmono : Monotone fun w : ℚ => w / d :=
    fun _ _ h => div_le_div_of_nonneg_right h (le_of_lt hd)
  intro l
  induction l with
  | nil => intro v; rfl
  | cons u l ih =>
    intro v
    rw [List.map_cons, List.foldl_cons, List.foldl_cons, ← ih]
    congr 1
    exact (hmono.map_min).symm

/-- On a non-empty buffer of finite values whose maximum and minimum differ,
`normalizeCoords` divides every entry by their difference. -/
theorem normalizeCoords_cons_of_ne (v : ℚ) (rest : List ℚ)
    (hfin : ∀ w ∈ v :: rest, -DBL_MAX ≤ w ∧ w ≤ DBL_MAX)
    (hne : rest.foldl max v ≠ rest.foldl min v) :
    normalizeCoords (v :: rest) ((v :: rest).length : ℤ) =
      some ((v :: rest).map fun w => w / (rest.foldl max v - rest.foldl min v)) := by
  obtain ⟨hlo, hhi⟩ := hfin v (List.mem_cons_self v rest)
  have hle : rest.foldl min v ≤ rest.foldl max v :=
    le_trans (foldl_min_le rest v) (le_foldl_max rest v)
  rw [normalizeCoords_eq]
  simp only [List.foldl_cons, max_eq_right hlo, min_eq_right hhi]
  rw [abs_of_nonneg (sub_nonneg.mpr hle), if_pos (sub_ne_zero.mpr hne)]

/-- C18: for every non-empty buffer of finite values whose entries are not all equal,
the output of `normalizeCoords` has maximum minus minimum equal to `1`, so that all its
entries lie in an interval of width `1`; the output is the input divided by one
positive number, and an entry equal to `0` stays `0`. -/
theorem normalizeCoords_range_is_one (coords : List ℚ)
    (hfin : ∀ w ∈ coords, -DBL_MAX ≤ w ∧ w ≤ DBL_MAX)
    (u v : ℚ) (hu : u ∈ coords) (hv : v ∈ coords) (huv : u ≠ v) :
    ∃ (out : List ℚ) (maxo mino d : ℚ),
      normalizeCoords coords (coords.length : ℤ) = some out ∧
      out.max? = some maxo ∧ out.min? = some mino ∧ maxo - mino = 1 ∧
      (∀ w ∈ out, mino ≤ w ∧ w ≤ maxo) ∧
      0 < d ∧ (out = coords.map fun w => w / d) ∧
      ∀ i : ℕ, coords[i]? = some 0 → out[i]? = some 0 := by
  cases coords with
  | nil => exact absurd hu (List.not_mem_nil u)
  | cons a rest =>
    have hmaxu := le_foldl_max_of_mem rest a u hu
    have hmaxv := le_foldl_max_of_mem rest a v hv
    have hminu := foldl_min_le_of_mem rest a u hu
    have hminv := foldl_min_le_of_mem rest a v hv
    have hne : rest.foldl max a ≠ rest.foldl min a := by
      intro h
      apply huv
      rw [h] at hmaxu hmaxv
      exact le_antisymm (le_trans hmaxu hminv) (le_trans hmaxv hminu)
    have hle : rest.foldl min a ≤ rest.foldl max a :=
      le_trans (foldl_min_le rest a) (le_foldl_max rest a)
    have hd : 0 < rest.foldl max a - rest.foldl min a :=
      sub_pos.mpr (lt_of_le_of_ne hle (Ne.symm hne))
    refine ⟨(a :: rest).map fun w => w / (rest.foldl max a - rest.foldl min a),
      rest.foldl max a / (rest.foldl max a - rest.foldl min a),
      rest.foldl min a / (rest.foldl max a - rest.foldl min a),
      rest.foldl max a - rest.foldl min a,
      normalizeCoords_cons_of_ne a rest hfin hne, ?_, ?_, ?_, ?_, hd, rfl, ?_⟩
    · rw [List.map_cons]
      show some (List.foldl max _ _) = _
      rw [foldl_max_map_div _ hd]
    · rw [List.map_cons]
      show some (List.foldl min _ _) = _
      rw [foldl_min_map_div _ hd]
    · rw [← sub_div, div_self (ne_of_gt hd)]
    · intro w hw
      rw [List.mem_map] at hw
      obtain ⟨w0, hw0, rfl⟩ := hw
      exact ⟨div_le_div_of_nonneg_right (foldl_min_le_of_mem rest a w0 hw0) (le_of_lt hd),
        div_le_div_of_nonneg_right (le_foldl_max_of_mem rest a w0 hw0) (le_of_lt hd)⟩
    · intro i hi
      rw [List.getElem?_map, hi]
      simp

/-- Instance of C18 on the buffer `[0, 2, 4]`, with the two distinct entries `0`, `2`. -/
theorem normalizeCoords_range_is_one_witness :
    (∀ w ∈ [(0 : ℚ), 2, 4], -DBL_MAX ≤ w ∧ w ≤ DBL_MAX) ∧ (0 : ℚ) ∈ [(0 : ℚ), 2, 4] ∧
      (2 : ℚ) ∈ [(0 : ℚ), 2, 4] ∧ (0 : ℚ) ≠ 2 ∧
      normalizeCoords [0, 2, 4] 3 = some [0, 1 / 2, 1] ∧
      ∃ (out : List ℚ) (maxo mino d : ℚ),
        normalizeCoords [0, 2, 4] (([(0 : ℚ), 2, 4].length : ℕ) : ℤ) = some out ∧
        out.max? = some maxo ∧ out.min? = some mino ∧ maxo - mino = 1 ∧
        (∀ w ∈ out, mino ≤ w ∧ w ≤ maxo) ∧
        0 < d ∧ (out = [(0 : ℚ), 2, 4].map fun w => w / d) ∧
        ∀ i : ℕ, [(0 : ℚ), 2, 4][i]? = some 0 → out[i]? = some 0 :=
  ⟨by decide!, by decide!, by decide!, by decide!, by decide!,
    normalizeCoords_range_is_one [0, 2, 4] (by decide!) 0 2 (by decide!) (by decide!)
      (by decide!)⟩

/-! ## Termination of `genPoly` -/

theorem loopFuel_eq_zero_of_not_le (v hi : ℤ) (hv : ¬ v ≤ hi) : loopFuel v hi = 0 := by
  unfold loopFuel
  omega

theorem convex_octahedron : Convex ℚ octahedron := by
  rw [convex_iff_forall_pos]
  intro u hu v hv s t hs ht hst
  simp only [octahedron, Set.mem_setOf_eq, Prod.fst_add, Prod.snd_add, Prod.smul_fst,
    Prod.smul_snd, smul_eq_mul] at hu hv ⊢
  have key : ∀ p q : ℚ, |s * p + t * q| ≤ s * |p| + t * |q| := by
    intro p q
    calc |s * p + t * q| ≤ |s * p| + |t * q| := abs_add _ _
      _ = s * |p| + t * |q| := by rw [abs_mul, abs_mul, abs_of_pos hs, abs_of_pos ht]
  have h1 := key u.1 v.1
  have h2 := key u.2.1 v.2.1
  have h3 := key u.2.2 v.2.2
  have h4 := mul_nonneg (le_of_lt hs) (sub_nonneg.mpr hu)
  have h5 := mul_nonneg (le_of_lt ht) (sub_nonneg.mpr hv)
  nlinarith

theorem mem_cloudSet_axisPoints2 (v : ℚ × ℚ × ℚ) :
    v ∈ cloudSet axisPoints2 ↔
      v = (2, 0, 0) ∨ v = (-2, 0, 0) ∨ v = (0, 2, 0) ∨ v = (0, -2, 0) ∨ v = (0, 0, 2) ∨
        v = (0, 0, -2) := by
  simp [cloudSet, axisPoints2, toVec, eq_comm]

theorem octahedron_subset_hull_axis : octahedron ⊆ convexHull ℚ (cloudSet axisPoints2) := by
  intro v hv
  simp only [octahedron, Set.mem_setOf_eq] at hv
  have hw : ∀ q : ℚ, 0 ≤ (|q| + q) / 4 ∧ 0 ≤ (|q| - q) / 4 := by
    intro q
    have h1 := neg_abs_le q
    have h2 := le_abs_self q
    constructor <;> linarith
  have h1 := hw v.1
  have h2 := hw v.2.1
  have h3 := hw v.2.2
  have ht : 0 ≤ (2 - (|v.1| + |v.2.1| + |v.2.2|)) / 12 := by linarith
  have hmem := @Convex.sum_mem ℚ (ℚ × ℚ × ℚ) (Fin 6) _ _ _ _ Finset.univ
    (fun i => match i with
      | 0 => (|v.1| + v.1) / 4 + (2 - (|v.1| + |v.2.1| + |v.2.2|)) / 12
      | 1 => (|v.1| - v.1) / 4 + (2 - (|v.1| + |v.2.1| + |v.2.2|)) / 12
      | 2 => (|v.2.1| + v.2.1) / 4 + (2 - (|v.1| + |v.2.1| + |v.2.2|)) / 12
      | 3 => (|v.2.1| - v.2.1) / 4 + (2 - (|v.1| + |v.2.1| + |v.2.2|)) / 12
      | 4 => (|v.2.2| + v.2.2) / 4 + (2 - (|v.1| + |v.2.1| + |v.2.2|)) / 12
      | 5 => (|v.2.2| - v.2.2) / 4 + (2 - (|v.1| + |v.2.1| + |v.2.2|)) / 12)
    (fun i => match i with
      | 0 => (2, 0, 0)
      | 1 => (-2, 0, 0)
      | 2 => (0, 2, 0)
      | 3 => (0, -2, 0)
      | 4 => (0, 0, 2)
      | 5 => (0, 0, -2))
    (convex_convexHull ℚ (cloudSet axisPoints2))
    (by
      intro i _
      fin_cases i <;> simp only [] <;> linarith)
    (by
      rw [Fin.sum_univ_six]
      simp only []
      ring)
    (by
      intro i _
      apply subset_convexHull
      rw [mem_cloudSet_axisPoints2]
      fin_cases i <;> simp)
  rw [Fin.sum_univ_six] at hmem
  simp only [] at hmem
  have hsum : ((|v.1| + v.1) / 4 + (2 - (|v.1| + |v.2.1| + |v.2.2|)) / 12) • ((2, 0, 0) : ℚ × ℚ × ℚ) +
      ((|v.1| - v.1) / 4 + (2 - (|v.1| + |v.2.1| + |v.2.2|)) / 12) • ((-2, 0, 0) : ℚ × ℚ × ℚ) +
      ((|v.2.1| + v.2.1) / 4 + (2 - (|v.1| + |v.2.1| + |v.2.2|)) / 12) • ((0, 2, 0) : ℚ × ℚ × ℚ) +
      ((|v.2.1| - v.2.1) / 4 + (2 - (|v.1| + |v.2.1| + |v.2.2|)) / 12) • ((0, -2, 0) : ℚ × ℚ × ℚ) +
      ((|v.2.2| + v.2.2) / 4 + (2 - (|v.1| + |v.2.1| + |v.2.2|)) / 12) • ((0, 0, 2) : ℚ × ℚ × ℚ) +
      ((|v.2.2| - v.2.2) / 4 + (2 - (|v.1| + |v.2.1| + |v.2.2|)) / 12) • ((0, 0, -2) : ℚ × ℚ × ℚ)
      = v := by
    refine Prod.ext ?_ (Prod.ext ?_ ?_) <;> simp <;> ring
  rw [← hsum]
  exact hmem

theorem genPoly_two_eq :
    genPoly 2 =
      [⟨-2, 0, 0⟩, ⟨-1, -1, 0⟩, ⟨-1, 0, -1⟩, ⟨-1, 0, 1⟩, ⟨-1, 1, 0⟩, ⟨0, -2, 0⟩, ⟨0, -1, -1⟩,
        ⟨0, -1, 1⟩, ⟨0, 0, -2⟩, ⟨0, 0, 0⟩, ⟨0, 0, 2⟩, ⟨0, 1, -1⟩, ⟨0, 1, 1⟩, ⟨0, 2, 0⟩,
        ⟨1, -1, 0⟩, ⟨1, 0, -1⟩, ⟨1, 0, 1⟩, ⟨1, 1, 0⟩, ⟨2, 0, 0⟩] := by
  decide!

theorem genPoly_two_subset_octahedron : cloudSet (genPoly 2) ⊆ octahedron := by
  have h : ∀ p ∈ genPoly 2, |p.x| + |p.y| + |p.z| ≤ 2 := by decide!
  rintro v ⟨p, hp, rfl⟩
  exact h p hp

theorem axisPoints2_subset_genPoly_two : cloudSet axisPoints2 ⊆ cloudSet (genPoly 2) := by
  have h : ∀ p ∈ axisPoints2, p ∈ genPoly 2 := by decide!
  rintro v ⟨p, hp, rfl⟩
  exact ⟨p, h p hp, rfl⟩

theorem hull_genPoly_two : convexHull ℚ (cloudSet (genPoly 2)) = octahedron :=
  Set.Subset.antisymm (convexHull_min genPoly_two_subset_octahedron convex_octahedron)
    (fun _ hv => convexHull_mono axisPoints2_subset_genPoly_two (octahedron_subset_hull_axis hv))

theorem hull_axisPoints2 : convexHull ℚ (cloudSet axisPoints2) = octahedron :=
  Set.Subset.antisymm
    (convexHull_min (fun _ hv => genPoly_two_subset_octahedron (axisPoints2_subset_genPoly_two hv))
      convex_octahedron)
    octahedron_subset_hull_axis

theorem eq_of_convex_comb_eq_max (s t p q M : ℚ) (hs : 0 < s) (ht : 0 < t) (hst : s + t = 1)
    (hp : p ≤ M) (hq : q ≤ M) (h : s * p + t * q = M) : p = M ∧ q = M := by
  have h1 : 0 ≤ s * (M - p) := mul_nonneg (le_of_lt hs) (sub_nonneg.mpr hp)
  have h2 : 0 ≤ t * (M - q) := mul_nonneg (le_of_lt ht) (sub_nonneg.mpr hq)
  have h3 : s * (M - p) + t * (M - q) = 0 := by
    have : s * (M - p) + t * (M - q) = (s + t) * M - (s * p + t * q) := by ring
    rw [this, hst, h]
    ring
  have h4 : s * (M - p) = 0 := by linarith
  have h5 : t * (M - q) = 0 := by linarith
  rcases mul_eq_zero.mp h4 with h6 | h6
  · exact absurd h6 (ne_of_gt hs)
  · rcases mul_eq_zero.mp h5 with h7 | h7
    · exact absurd h7 (ne_of_gt ht)
    · constructor <;> linarith

theorem octahedron_coord_le (u : ℚ × ℚ × ℚ) (hu : u ∈ octahedron) :
    (u.1 ≤ 2 ∧ -u.1 ≤ 2) ∧ (u.2.1 ≤ 2 ∧ -u.2.1 ≤ 2) ∧ (u.2.2 ≤ 2 ∧ -u.2.2 ≤ 2) := by
  simp only [octahedron, Set.mem_setOf_eq] at hu
  have a1 := le_abs_self u.1
  have a2 := neg_abs_le u.1
  have b1 := le_abs_self u.2.1
  have b2 := neg_abs_le u.2.1
  have c1 := le_abs_self u.2.2
  have c2 := neg_abs_le u.2.2
  have a0 := abs_nonneg u.1
  have b0 := abs_nonneg u.2.1
  have c0 := abs_nonneg u.2.2
  refine ⟨⟨?_, ?_⟩, ⟨?_, ?_⟩, ⟨?_, ?_⟩⟩ <;> linarith

theorem octahedron_eq_of_abs_coord (u : ℚ × ℚ × ℚ) (hu : u ∈ octahedron) :
    (|u.1| = 2 → u.2.1 = 0 ∧ u.2.2 = 0) ∧ (|u.2.1| = 2 → u.1 = 0 ∧ u.2.2 = 0) ∧
      (|u.2.2| = 2 → u.1 = 0 ∧ u.2.1 = 0) := by
  simp only [octahedron, Set.mem_setOf_eq] at hu
  have a0 := abs_nonneg u.1
  have b0 := abs_nonneg u.2.1
  have c0 := abs_nonneg u.2.2
  refine ⟨fun h => ⟨?_, ?_⟩, fun h => ⟨?_, ?_⟩, fun h => ⟨?_, ?_⟩⟩ <;>
    exact abs_eq_zero.mp (le_antisymm (by linarith) (abs_nonneg _))

theorem axisPoints2_extreme (v : ℚ × ℚ × ℚ) (hv : v ∈ cloudSet axisPoints2) :
    v ∈ Set.extremePoints ℚ octahedron := by
  rw [mem_extremePoints]
  refine ⟨hull_axisPoints2 ▸ subset_convexHull ℚ _ hv, ?_⟩
  rintro u hu w hw ⟨s, t, hs, ht, hst, hcomb⟩
  obtain ⟨⟨ux1, ux2⟩, ⟨uy1, uy2⟩, ⟨uz1, uz2⟩⟩ := octahedron_coord_le u hu
  obtain ⟨⟨wx1, wx2⟩, ⟨wy1, wy2⟩, ⟨wz1, wz2⟩⟩ := octahedron_coord_le w hw
  obtain ⟨eux, euy, euz⟩ := octahedron_eq_of_abs_coord u hu
  obtain ⟨ewx, ewy, ewz⟩ := octahedron_eq_of_abs_coord w hw
  have hx : s * u.1 + t * w.1 = v.1 := by
    have := congrArg Prod.fst hcomb
    simpa using this
  have hy : s * u.2.1 + t * w.2.1 = v.2.1 := by
    have := congrArg (fun z : ℚ × ℚ × ℚ => z.2.1) hcomb
    simpa using this
  have hz : s * u.2.2 + t * w.2.2 = v.2.2 := by
    have := congrArg (fun z : ℚ × ℚ × ℚ => z.2.2) hcomb
    simpa using this
  rw [mem_cloudSet_axisPoints2] at hv
  rcases hv with rfl | rfl | rfl | rfl | rfl | rfl
  · obtain ⟨e1, e2⟩ := eq_of_convex_comb_eq_max s t u.1 w.1 2 hs ht hst ux1 wx1 hx
    obtain ⟨e3, e4⟩ := eux (by rw [e1]; norm_num)
    obtain ⟨e5, e6⟩ := ewx (by rw [e2]; norm_num)
    exact ⟨Prod.ext e1 (Prod.ext e3 e4), Prod.ext e2 (Prod.ext e5 e6)⟩
  · obtain ⟨e1, e2⟩ := eq_of_convex_comb_eq_max s t (-u.1) (-w.1) 2 hs ht hst ux2 wx2
      (by simp only [] at hx; linarith)
    obtain ⟨e3, e4⟩ := eux (by rw [← abs_neg, e1]; norm_num)
    obtain ⟨e5, e6⟩ := ewx (by rw [← abs_neg, e2]; norm_num)
    exact ⟨Prod.ext (by simp only []; linarith) (Prod.ext e3 e4),
      Prod.ext (by simp only []; linarith) (Prod.ext e5 e6)⟩
  · obtain ⟨e1, e2⟩ := eq_of_convex_comb_eq_max s t u.2.1 w.2.1 2 hs ht hst uy1 wy1 hy
    obtain ⟨e3, e4⟩ := euy (by rw [e1]; norm_num)
    obtain ⟨e5, e6⟩ := ewy (by rw [e2]; norm_num)
    exact ⟨Prod.ext e3 (Prod.ext e1 e4), Prod.ext e5 (Prod.ext e2 e6)⟩
  · obtain ⟨e1, e2⟩ := eq_of_convex_comb_eq_max s t (-u.2.1) (-w.2.1) 2 hs ht hst uy2 wy2
      (by simp only [] at hy; linarith)
    obtain ⟨e3, e4⟩ := euy (by rw [← abs_neg, e1]; norm_num)
    obtain ⟨e5, e6⟩ := ewy (by rw [← abs_neg, e2]; norm_num)
    exact ⟨Prod.ext e3 (Prod.ext (by simp only []; linarith) e4),
      Prod.ext e5 (Prod.ext (by simp only []; linarith) e6)⟩
  · obtain ⟨e1, e2⟩ := eq_of_convex_comb_eq_max s t u.2.2 w.2.2 2 hs ht hst uz1 wz1 hz
    obtain ⟨e3, e4⟩ := euz (by rw [e1]; norm_num)
    obtain ⟨e5, e6⟩ := ewz (by rw [e2]; norm_num)
    exact ⟨Prod.ext e3 (Prod.ext e4 e1), Prod.ext e5 (Prod.ext e6 e2)⟩
  · obtain ⟨e1, e2⟩ := eq_of_convex_comb_eq_max s t (-u.2.2) (-w.2.2) 2 hs ht hst uz2 wz2
      (by simp only [] at hz; linarith)
    obtain ⟨e3, e4⟩ := euz (by rw [← abs_neg, e1]; norm_num)
    obtain ⟨e5, e6⟩ := ewz (by rw [← abs_neg, e2]; norm_num)
    exact ⟨Prod.ext e3 (Prod.ext e4 (by simp only []; linarith)),
      Prod.ext e5 (Prod.ext e6 (by simp only []; linarith))⟩

theorem extremePoints_octahedron : Set.extremePoints ℚ octahedron = cloudSet axisPoints2 :=
  Set.Subset.antisymm
    (by
      have h := @extremePoints_convexHull_subset ℚ (ℚ × ℚ × ℚ) _ _ _ _ _ (cloudSet axisPoints2)
      rw [hull_axisPoints2] at h
      exact h)
    axisPoints2_extreme

/-- C17: `genPoly 2` emits exactly `19` points, the origin, the twelve permutations of
`(±1, ±1, 0)` and the six axis points `(±2, 0, 0)`, `(0, ±2, 0)`, `(0, 0, ±2)`; every
emitted point satisfies `|x| + |y| + |z| ≤ 2` and is a convex combination of the axis
points; and the extreme points of the convex hull of the cloud are exactly the six axis
points. -/
theorem genPoly_two_cloud_and_hull :
    genPoly 2 =
      [⟨-2, 0, 0⟩, ⟨-1, -1, 0⟩, ⟨-1, 0, -1⟩, ⟨-1, 0, 1⟩, ⟨-1, 1, 0⟩, ⟨0, -2, 0⟩, ⟨0, -1, -1⟩,
        ⟨0, -1, 1⟩, ⟨0, 0, -2⟩, ⟨0, 0, 0⟩, ⟨0, 0, 2⟩, ⟨0, 1, -1⟩, ⟨0, 1, 1⟩, ⟨0, 2, 0⟩,
        ⟨1, -1, 0⟩, ⟨1, 0, -1⟩, ⟨1, 0, 1⟩, ⟨1, 1, 0⟩, ⟨2, 0, 0⟩] ∧
      (genPoly 2).length = 19 ∧
      List.Perm (genPoly 2) (⟨0, 0, 0⟩ :: (edgePoints2 ++ axisPoints2)) ∧
      (∀ p ∈ genPoly 2, |p.x| + |p.y| + |p.z| ≤ 2 ∧
        toVec p ∈ convexHull ℚ (cloudSet axisPoints2)) ∧
      Set.extremePoints ℚ (convexHull ℚ (cloudSet (genPoly 2))) = cloudSet axisPoints2 := by
  refine ⟨genPoly_two_eq, by decide!, by decide!, ?_, ?_⟩
  · intro p hp
    have h := genPoly_two_subset_octahedron ⟨p, hp, rfl⟩
    exact ⟨h, octahedron_subset_hull_axis h⟩
  · rw [hull_genPoly_two, extremePoints_octahedron]

end Waterman
